import Mathlib

set_option maxHeartbeats 1000000
set_option maxRecDepth 8000

/-
  Verification of the raycasting engine (src/main.rs).

  The f32 arithmetic of the source is modelled exactly over a linear ordered
  field `K` with a floor function, instantiated at `ℚ` for concrete evaluation
  and at `ℝ` where `π`, `cos`, `sin` or `sqrt` appear.  Machine-float rounding
  is not modelled; every arithmetic operation of the source is translated to
  the corresponding exact field operation.  `point.distance_to(start).powi(2)`
  (a square root followed by squaring) is modelled as the exact squared
  distance, since `(Real.sqrt x)^2 = x` for `x ≥ 0` in exact arithmetic.
-/

namespace Raycasting

/-- A grid cell (`enum Cell`).  Colors and texture handles are modelled as
opaque natural-number identifiers; none of the verified properties depend on
their contents. -/
inductive Cell where
  | EMPTY
  | COLOR (c : ℕ)
  | TEXTURE (t : ℕ)
  | TranslucentTexture (t : ℕ)
  deriving DecidableEq

/-- `struct Board`: a `rows × cols` grid stored row-major in `cells`. -/
structure Board where
  rows : ℕ
  cols : ℕ
  cells : List Cell
  deriving DecidableEq

/-- `Board::new(rows, cols)`: `rows*cols` cells, all Empty. -/
def Board.new (rows cols : ℕ) : Board :=
  { rows := rows, cols := cols, cells := List.replicate (rows * cols) Cell.EMPTY }

/-- `Board::at(x, y)` with its two bounds assertions: `none` models the panic
(`assert!(x < self.cols)` / `assert!(y < self.rows)`), `some` the returned
cell `cells[y * cols + x]`. -/
def Board.at? (b : Board) (x y : ℕ) : Option Cell :=
  if x < b.cols ∧ y < b.rows then some (b.cells.getD (y * b.cols + x) Cell.EMPTY) else none

/-- The cell lookup `cells[y * cols + x]` without the bounds assertions; used
only where the assertions are separately proved to succeed. -/
def Board.atD (b : Board) (x y : ℕ) : Cell :=
  b.cells.getD (y * b.cols + x) Cell.EMPTY

/-- `Board::set(x, y, cell)`: replaces `cells[y * cols + x]`.  All uses in this
development are at indices proved (or checked by `decide`) to be in bounds, so
the source's bounds assertions are omitted here (`List.set` is the write). -/
def Board.set (b : Board) (x y : ℕ) (c : Cell) : Board :=
  { b with cells := b.cells.set (y * b.cols + x) c }

section Geometry

variable {K : Type*} [LinearOrderedField K]

/-- Rust `f32::signum`: `1.0` for positive numbers and `+0.0`, `-1.0` for
negative numbers (the zero case matters: `signum(0.0) = 1.0` in Rust). -/
def sgn (q : K) : K := if q < 0 then -1 else 1

/-- Squared Euclidean distance: `a.sub(b).length_sqr()`, and the exact value of
`a.distance_to(b).powi(2)`. -/
def distSq (p q : K × K) : K := (p.1 - q.1) ^ 2 + (p.2 - q.2) ^ 2

/-- `v.length_sqr()`. -/
def lengthSq (v : K × K) : K := v.1 ^ 2 + v.2 ^ 2

/-- `Vector2::rotated(angle)` writes `(x cos θ - y sin θ, x sin θ + y cos θ)`;
the cosine and sine of the angle are passed in as the arguments `c` and `s`. -/
def rotate2 (v : K × K) (c s : K) : K × K :=
  (v.1 * c - v.2 * s, v.1 * s + v.2 * c)

/-- `struct Transform2D`. -/
structure Transform2D (K : Type*) where
  offset : K × K
  zoom : K × K

/-- `Transform2DApplayer for Vector2`, `fn apply`: `self.mul(t.zoom).add(t.offset)`
(component-wise multiply, then translate). -/
def applyVec (v : K × K) (t : Transform2D K) : K × K := v * t.zoom + t.offset

/-- `Transform2DApplayer for Vector2`, `fn apply_zoom`: `self.mul(t.zoom)`. -/
def applyZoomVec (v : K × K) (t : Transform2D K) : K × K := v * t.zoom

/-- raylib `Rectangle` (position and size). -/
structure Rect (K : Type*) where
  x : K
  y : K
  width : K
  height : K

/-- `Transform2DApplayer for Rectangle`, `fn apply`. -/
def applyRect (r : Rect K) (t : Transform2D K) : Rect K :=
  { x := r.x * t.zoom.1 + t.offset.1, y := r.y * t.zoom.2 + t.offset.2,
    width := r.width * t.zoom.1, height := r.height * t.zoom.2 }

/-- `Transform2DApplayer for Rectangle`, `fn apply_zoom`. -/
def applyZoomRect (r : Rect K) (t : Transform2D K) : Rect K :=
  { x := r.x * t.zoom.1, y := r.y * t.zoom.2,
    width := r.width * t.zoom.1, height := r.height * t.zoom.2 }

/-- `struct Straight`: the ray as a line `y = a x + b` plus the direction. -/
structure Straight (K : Type*) where
  a : K
  b : K
  dir : K × K

/-- `Straight::new(p1, p2)`: slope `dir.y / dir.x`, or `0` when `dir.x == 0`;
intercept `p1.y - p1.x * a`. -/
def Straight.new (p1 p2 : K × K) : Straight K :=
  let dir := p2 - p1
  let a := if dir.1 ≠ 0 then dir.2 / dir.1 else 0
  { a := a, b := p1.2 - p1.1 * a, dir := dir }

/-- `Straight::f(x) = x * a + b`. -/
def Straight.f (st : Straight K) (x : K) : K := x * st.a + st.b

/-- `Straight::f1(y) = (y - b) / a`. -/
def Straight.f1 (st : Straight K) (y : K) : K := (y - st.b) / st.a

end Geometry

section RayCaster

variable {K : Type*} [LinearOrderedField K] [FloorRing K]

/-- `const EPS: f32 = 1e-6` (the exact rational; the trace-relevant facts
`0 < EPS < 1` hold for the f32 value as well). -/
def EPS : K := 1 / 1000000

/-- `const FAR_CLIPING_PLANE: f32 = 10.0` (source spelling). -/
def FAR_CLIPING_PLANE : K := 10

/-- `const NUM_OF_RAYS: usize = 430`. -/
def NUM_OF_RAYS : ℕ := 430

/-- `fn next_ray_step(current, straight)`: the next grid-line crossing of the
line, in the x direction (ceil when travelling right, floor when left,
evaluated through `f`), and — when the line is not flat — also in the y
direction (through `f1`); whichever candidate is closer (squared distance) to
`current` is returned. -/
def next_ray_step (current : K × K) (st : Straight K) : K × K :=
  let x : K := if st.dir.1 > 0 then (⌈current.1⌉ : ℤ) else (⌊current.1⌋ : ℤ)
  let y : K := st.f x
  if st.a ≠ 0 then
    let y2 : K := if st.dir.2 > 0 then (⌈current.2⌉ : ℤ) else (⌊current.2⌋ : ℤ)
    let x2 : K := st.f1 y2
    if distSq (x2, y2) current < distSq (x, y) current then (x2, y2) else (x, y)
  else (x, y)

/-- The line `cast_ray` builds: `Straight::new(start, start.add(dir))`. -/
def rayStraight (s d : K × K) : Straight K := Straight.new s (s + d)

/-- The signed nudge of `cast_ray`:
`Vector2::new(signum(straight.dir.x) * EPS, signum(straight.dir.y) * EPS)`. -/
def rayEps (st : Straight K) : K × K := (sgn st.dir.1 * EPS, sgn st.dir.2 * EPS)

/-- The "ahead" cell x index before clamping:
`floor(point.x)` if `dir.x > 0` else `ceil(point.x) - 1`. -/
def idxX (d p : K × K) : K :=
  if d.1 > 0 then ((⌊p.1⌋ : ℤ) : K) else ((⌈p.1⌉ : ℤ) : K) - 1

/-- The "ahead" cell y index before clamping:
`floor(point.y + eps.y)` if `dir.y > 0` else `ceil(point.y) - 1`. -/
def idxY (d eps p : K × K) : K :=
  if d.2 > 0 then ((⌊p.2 + eps.2⌋ : ℤ) : K) else ((⌈p.2⌉ : ℤ) : K) - 1

/-- `f32::max(f32::min(v, n as f32 - 1.0), 0.0) as usize`; the cast of the
clamped (hence non-negative) value truncates toward zero, i.e. floors. -/
def clampIdx (v : K) (n : ℕ) : ℕ := (⌊max (min v ((n : K) - 1)) 0⌋).toNat

/-- The cell `cast_ray` inspects at a loop point: `board.at(x, y)` at the
clamped ahead-cell indices (`none` models the assertion panic in `at`). -/
def loopCell (bo : Board) (d eps p : K × K) : Option Cell :=
  bo.at? (clampIdx (idxX d p) bo.cols) (clampIdx (idxY d eps p) bo.rows)

/-- The `while` loop of `cast_ray`, with explicit fuel.  The result is `none`
when a bounds assertion in `Board::at` fires, and otherwise the collected hit
points plus a flag: `true` when the loop exited by its own condition or by the
opaque-hit `break`, `false` when the fuel ran out first (the source loop has
no fuel; `cast_ray_terminates` shows fuel `castRayFuel` always suffices). -/
def castRayLoop (bo : Board) (st : Straight K) (eps start d : K × K) :
    ℕ → K × K → List (K × K) → K → K → Option (List (K × K) × Bool)
  | 0, _, acc, _, _ => some (acc, false)
  | fuel + 1, point, acc, dist, lastDist =>
    if dist < FAR_CLIPING_PLANE * FAR_CLIPING_PLANE ∧ dist ≠ lastDist then
      match loopCell bo d eps point with
      | none => none
      | some Cell.EMPTY =>
          let point2 := next_ray_step (point + eps) st
          castRayLoop bo st eps start d fuel point2 acc (distSq point2 start) dist
      | some (Cell.TranslucentTexture _) =>
          let point2 := next_ray_step (point + eps) st
          castRayLoop bo st eps start d fuel point2 (acc ++ [point]) (distSq point2 start) dist
      | some (Cell.COLOR _) => some (acc ++ [point], true)
      | some (Cell.TEXTURE _) => some (acc ++ [point], true)
    else some (acc, true)

/-- A fuel budget sufficient for every ray (proved in `cast_ray_terminates`):
the loop crosses at most `2 * (FAR_CLIPING_PLANE + 1)` grid lines before the
far-clip check stops it, or stalls within 2 iterations. -/
def castRayFuel : ℕ := 32

/-- `fn cast_ray(start, dir, board)`: build the line and the nudge, take the
first step, and run the loop with `dist = |point - start|²` and
`last_dist = dist - 1`. -/
def cast_ray (fuel : ℕ) (start d : K × K) (bo : Board) : Option (List (K × K) × Bool) :=
  let st := rayStraight start d
  let eps := rayEps st
  let point := next_ray_step start st
  castRayLoop bo st eps start d fuel point [] (distSq point start) (distSq point start - 1)

/-- The hit-point list of `cast_ray` (empty if the model's panic case arose;
`cast_ray_no_panic` shows it does not for non-degenerate boards). -/
def castRayPoints (fuel : ℕ) (start d : K × K) (bo : Board) : List (K × K) :=
  match cast_ray fuel start d bo with
  | some (pts, _) => pts
  | none => []

end RayCaster

/-- `struct Player`. -/
structure Player (K : Type*) where
  pos : K × K
  dir : K × K
  spd : K × K
  turn_spd : K

/-- `struct Game`. -/
structure Game (K : Type*) where
  board : Board
  player : Player K

section FovSampler

variable {K : Type*} [LinearOrderedField K] [FloorRing K]

/-- The in-bounds test of `get_hitted_cells`:
`point.x >= 0 && point.x < cols && point.y >= 0 && point.y < rows`. -/
def Board.containsPoint (bo : Board) (p : K × K) : Prop :=
  0 ≤ p.1 ∧ p.1 < (bo.cols : K) ∧ 0 ≤ p.2 ∧ p.2 < (bo.rows : K)

instance (bo : Board) (p : K × K) : Decidable (bo.containsPoint p) := by
  unfold Board.containsPoint; infer_instance

/-- The unclamped ahead-cell index of `get_hitted_cells`
(`floor(coord)` if the direction component is positive, else `ceil(coord) - 1`),
followed by the saturating `as usize` cast (negative values go to 0). -/
def hitIdx (dc pc : K) : ℕ :=
  if dc > 0 then (⌊pc⌋).toNat else (⌈pc⌉ - 1).toNat

/-- Resolution of one hit point to its owning cell in `get_hitted_cells`:
cells outside board bounds resolve to `EMPTY`; in-bounds points go through
`board.at` (whose assertions always succeed here, see `hitIdx_lt`), modelled
by `Board.atD`. -/
def resolveHitCell (bo : Board) (d p : K × K) : Cell :=
  if bo.containsPoint p then bo.atD (hitIdx d.1 p.1) (hitIdx d.2 p.2) else Cell.EMPTY

/-- `fn get_hitted_cells(game)`: `NUM_OF_RAYS` columns, each initialized with
the sentinel `(EMPTY, zero)` entry; ray `i` uses direction
`start + i * lerp_amount` where `start`/`end` are the camera direction rotated
by `±FOV/2` and `lerp_amount = (end - start) / NUM_OF_RAYS`.  The cosine and
sine of `FOV/2` in radians are passed in as `c` and `s` (the source computes
them with `f32` trigonometry); `fuel` is the loop fuel for `cast_ray`. -/
def get_hitted_cells (fuel : ℕ) (c s : K) (g : Game K) : List (List (Cell × (K × K))) :=
  let dstart := rotate2 g.player.dir c s
  let dend := rotate2 g.player.dir c (-s)
  let lerp := ((dend.1 - dstart.1) / (NUM_OF_RAYS : K), (dend.2 - dstart.2) / (NUM_OF_RAYS : K))
  (List.range NUM_OF_RAYS).map fun (i : ℕ) =>
    let dir := (dstart.1 + (i : K) * lerp.1, dstart.2 + (i : K) * lerp.2)
    (Cell.EMPTY, ((0 : K), (0 : K))) ::
      (castRayPoints fuel g.player.pos dir g.board).map fun p => (resolveHitCell g.board dir p, p)

end FovSampler

section Projector

variable {K : Type*} [LinearOrderedField K]

/-- The column height of `render_game`:
`h = (window_size.y / dist) / (2.0 * window_size.y / window_size.x)`. -/
def column_height (windowH windowW dist : K) : K :=
  (windowH / dist) / (2 * windowH / windowW)

/-- The action of `fn darken_color(color, dist)` on the HSV value channel:
`hsv.z * (1.0 - dist)` (hue and saturation are unchanged). -/
def darken_value (v dist : K) : K := v * (1 - dist)

/-- The value channel actually drawn for a solid-color cell in `render_game`:
the source calls `darken_color(color, max_dist)` — passing the board diagonal
`max_dist` itself as the darkening argument, so the perpendicular distance
`dist` of the hit is not used at all. -/
def solid_color_value (v maxDist dist : K) : K := darken_value v maxDist

/-- Modelled from the spec: the value channel the spec prescribes for a
solid-color hit, scaled by `(1 - d / maxBoardDiagonal)` — i.e.
`darken_color(color, dist / max_dist)`, exactly what the source's textured
branch passes for its tint. -/
def spec_solid_color_value (v maxDist dist : K) : K := darken_value v (dist / maxDist)

end Projector

/-- `max_dist = Vector2::new(cols, rows).length()`: the board diagonal. -/
noncomputable def max_board_diagonal (cols rows : ℝ) : ℝ :=
  Real.sqrt (cols ^ 2 + rows ^ 2)

/-- `Player::new(x, y)`: direction `(1, 0)`, speed `(1, 1)`, turn speed
`FRAC_PI_2`. -/
noncomputable def Player.new (x y : ℝ) : Player ℝ :=
  { pos := (x, y), dir := (1, 0), spd := (1, 1), turn_spd := Real.pi / 2 }

/-- `Player::turn_left(delta)`: `dir.rotate(-turn_spd * delta)`. -/
noncomputable def Player.turn_left (p : Player ℝ) (delta : ℝ) : Player ℝ :=
  { p with dir := rotate2 p.dir (Real.cos (-p.turn_spd * delta)) (Real.sin (-p.turn_spd * delta)) }

/-- `Player::turn_right(delta)`: `dir.rotate(turn_spd * delta)`. -/
noncomputable def Player.turn_right (p : Player ℝ) (delta : ℝ) : Player ℝ :=
  { p with dir := rotate2 p.dir (Real.cos (p.turn_spd * delta)) (Real.sin (p.turn_spd * delta)) }

/-- A sequence of turn inputs applied in order: `(true, δ)` is a `turn_left δ`
frame, `(false, δ)` a `turn_right δ` frame. -/
noncomputable def applyTurns (p : Player ℝ) (ds : List (Bool × ℝ)) : Player ℝ :=
  ds.foldl (fun pl bd => if bd.1 then pl.turn_left bd.2 else pl.turn_right bd.2) p

section BasicLemmas

variable {K : Type*} [LinearOrderedField K]

lemma sgn_of_pos {q : K} (h : 0 < q) : sgn q = 1 := if_neg (not_lt.mpr h.le)

lemma sgn_of_neg {q : K} (h : q < 0) : sgn q = -1 := if_pos h

lemma sgn_mul_self (q : K) : sgn q * q = |q| := by
  unfold sgn
  split
  · rw [abs_of_neg (by assumption)]; ring
  · rw [abs_of_nonneg (not_lt.mp (by assumption))]; ring

lemma sgn_mul_sgn (q : K) : sgn q * sgn q = 1 := by
  unfold sgn; split <;> norm_num

lemma sgn_sq_mul (r t : K) : (sgn r * t) ^ 2 = t ^ 2 := by
  unfold sgn; split <;> ring

lemma sgn_ne_zero (q : K) : sgn q ≠ 0 := by
  unfold sgn; split <;> norm_num

/-- The slope is zero exactly when the direction's x or y component is. -/
lemma rayStraight_a (s d : K × K) :
    (rayStraight s d).a = if d.1 ≠ 0 then d.2 / d.1 else 0 := by
  simp [rayStraight, Straight.new]

lemma rayStraight_b (s d : K × K) :
    (rayStraight s d).b = s.2 - s.1 * (rayStraight s d).a := by
  simp [rayStraight, Straight.new]

lemma rayStraight_dir (s d : K × K) : (rayStraight s d).dir = d := by
  simp [rayStraight, Straight.new]

lemma rayStraight_a_ne_zero {s d : K × K} (h : (rayStraight s d).a ≠ 0) :
    d.1 ≠ 0 ∧ d.2 ≠ 0 := by
  rw [rayStraight_a] at h
  by_cases h1 : d.1 = 0
  · simp [h1] at h
  · refine ⟨h1, fun h2 => ?_⟩
    simp [h1, h2] at h

lemma rayStraight_a_of_ne {s d : K × K} (h1 : d.1 ≠ 0) :
    (rayStraight s d).a = d.2 / d.1 := by
  rw [rayStraight_a, if_pos h1]

end BasicLemmas

section RayGeometry

variable {K : Type*} [LinearOrderedField K] [FloorRing K]

lemma EPS_pos : (0 : K) < EPS := by norm_num [EPS]

lemma EPS_lt_one : (EPS : K) < 1 := by norm_num [EPS]

lemma far_sq : (FAR_CLIPING_PLANE : K) * FAR_CLIPING_PLANE = 100 := by
  norm_num [FAR_CLIPING_PLANE]

/-- The point lies on the line `y = a x + b` of the ray. -/
def onLine (st : Straight K) (p : K × K) : Prop := p.2 = st.f p.1

lemma onLine_start (s d : K × K) : onLine (rayStraight s d) s := by
  unfold onLine Straight.f
  rw [rayStraight_b]
  ring

lemma f_f1 (st : Straight K) (ha : st.a ≠ 0) (y : K) : st.f (st.f1 y) = y := by
  unfold Straight.f Straight.f1
  field_simp

/-- The x-grid-line candidate coordinate of `next_ray_step`:
`ceil(current.x)` when travelling right, `floor(current.x)` otherwise. -/
def xCoord (c : K × K) (st : Straight K) : K :=
  if st.dir.1 > 0 then ((⌈c.1⌉ : ℤ) : K) else ((⌊c.1⌋ : ℤ) : K)

/-- The y-grid-line candidate coordinate of `next_ray_step`:
`ceil(current.y)` when travelling up, `floor(current.y)` otherwise. -/
def yCoord (c : K × K) (st : Straight K) : K :=
  if st.dir.2 > 0 then ((⌈c.2⌉ : ℤ) : K) else ((⌊c.2⌋ : ℤ) : K)

lemma next_ray_step_eq (c : K × K) (st : Straight K) :
    next_ray_step c st =
      if st.a ≠ 0 then
        (if distSq (st.f1 (yCoord c st), yCoord c st) c
            < distSq (xCoord c st, st.f (xCoord c st)) c
          then (st.f1 (yCoord c st), yCoord c st)
          else (xCoord c st, st.f (xCoord c st)))
      else (xCoord c st, st.f (xCoord c st)) := rfl

/-- `next_ray_step` returns either the x-grid-line candidate `(x, f x)` or
(when the line is not flat) the y-grid-line candidate `(f1 y, y)`. -/
lemma next_ray_step_spec (c : K × K) (st : Straight K) :
    next_ray_step c st = (xCoord c st, st.f (xCoord c st))
    ∨ (st.a ≠ 0 ∧ next_ray_step c st = (st.f1 (yCoord c st), yCoord c st)) := by
  rw [next_ray_step_eq]
  by_cases ha : st.a ≠ 0
  · rw [if_pos ha]
    by_cases hcmp : distSq (st.f1 (yCoord c st), yCoord c st) c
        < distSq (xCoord c st, st.f (xCoord c st)) c
    · rw [if_pos hcmp]; right; exact ⟨ha, rfl⟩
    · rw [if_neg hcmp]; left; rfl
  · rw [if_neg ha]
    left; rfl

lemma onLine_next (c : K × K) (st : Straight K) : onLine st (next_ray_step c st) := by
  rcases next_ray_step_spec c st with h | ⟨ha, h⟩
  · rw [h]; exact rfl
  · rw [h]
    unfold onLine
    exact (f_f1 st ha _).symm

lemma sgn_intCast (r : K) (k : ℤ) : ∃ j : ℤ, sgn r * (k : K) = (j : K) := by
  unfold sgn
  split
  · exact ⟨-k, by push_cast; ring⟩
  · exact ⟨k, by push_cast; ring⟩

/-- Sign combinatorics of the cross-coordinate displacement: when `x ≠ 0` and
`t` points weakly in the direction of `x`, then `t * (y / x)` points weakly in
the direction of `y`. -/
lemma aux_cross (x y t : K) (hx : x ≠ 0) (ht : 0 ≤ sgn x * t) :
    0 ≤ sgn y * (t * (y / x)) := by
  have h2 : t / x = (sgn x * t) / (sgn x * x) := (mul_div_mul_left t x (sgn_ne_zero x)).symm
  have h3 : (0 : K) ≤ t / x := by
    rw [h2, sgn_mul_self x]
    exact div_nonneg ht (abs_nonneg x)
  have h4 : sgn y * (t * (y / x)) = (t / x) * (sgn y * y) := by ring
  rw [h4, sgn_mul_self y]
  exact mul_nonneg h3 (abs_nonneg y)

/-- The ceil/floor grid-line candidate moves weakly forward (in the signed
sense) past the current coordinate, and is an integer. -/
lemma ceil_floor_cand (r t : K) (hr : r ≠ 0) :
    (∃ k : ℤ, (if r > 0 then ((⌈t⌉ : ℤ) : K) else ((⌊t⌋ : ℤ) : K)) = (k : K)) ∧
      sgn r * (if r > 0 then ((⌈t⌉ : ℤ) : K) else ((⌊t⌋ : ℤ) : K)) ≥ sgn r * t := by
  rcases lt_or_gt_of_ne hr with hneg | hpos
  · rw [if_neg (not_lt.mpr hneg.le), sgn_of_neg hneg]
    exact ⟨⟨⌊t⌋, rfl⟩, by have := Int.floor_le t; nlinarith⟩
  · rw [if_pos hpos, sgn_of_pos hpos]
    exact ⟨⟨⌈t⌉, rfl⟩, by have := Int.le_ceil t; nlinarith⟩

/-- Main forward-step lemma: stepping from a point `p` on the line, nudged by
any vector `e` pointing weakly in the travel direction, yields a point whose
coordinates move weakly forward; the grid-line coordinate of the chosen
candidate is an integer and advances at least past `p + e`. -/
lemma next_step_forward (s d : K × K) (hd : d.1 ≠ 0) (p e : K × K)
    (hex : 0 ≤ sgn d.1 * e.1) (hey : 0 ≤ sgn d.2 * e.2)
    (hp : onLine (rayStraight s d) p) :
    ((∃ k : ℤ, (next_ray_step (p + e) (rayStraight s d)).1 = (k : K)) ∧
      sgn d.1 * (next_ray_step (p + e) (rayStraight s d)).1
        ≥ sgn d.1 * p.1 + sgn d.1 * e.1 ∧
      sgn d.2 * (next_ray_step (p + e) (rayStraight s d)).2 ≥ sgn d.2 * p.2)
    ∨ ((∃ m : ℤ, (next_ray_step (p + e) (rayStraight s d)).2 = (m : K)) ∧
      sgn d.2 * (next_ray_step (p + e) (rayStraight s d)).2
        ≥ sgn d.2 * p.2 + sgn d.2 * e.2 ∧
      sgn d.1 * (next_ray_step (p + e) (rayStraight s d)).1 ≥ sgn d.1 * p.1) := by
  have hxc : xCoord (p + e) (rayStraight s d)
      = (if d.1 > 0 then ((⌈p.1 + e.1⌉ : ℤ) : K) else ((⌊p.1 + e.1⌋ : ℤ) : K)) := by
    unfold xCoord; rw [rayStraight_dir]; rfl
  have hyc : yCoord (p + e) (rayStraight s d)
      = (if d.2 > 0 then ((⌈p.2 + e.2⌉ : ℤ) : K) else ((⌊p.2 + e.2⌋ : ℤ) : K)) := by
    unfold yCoord; rw [rayStraight_dir]; rfl
  rcases next_ray_step_spec (p + e) (rayStraight s d) with hq | ⟨ha, hq⟩
  · -- x-grid-line candidate (x, f x)
    left
    rw [hq]
    obtain ⟨⟨k, hk⟩, hge⟩ := ceil_floor_cand d.1 (p.1 + e.1) hd
    rw [← hxc] at hk hge
    rw [mul_add] at hge
    refine ⟨⟨k, hk⟩, hge, ?_⟩
    -- second coordinate: f x vs p.2 = f p.1
    set x : K := xCoord (p + e) (rayStraight s d) with hxdef
    by_cases hA : (rayStraight s d).a = 0
    · have hfx : (rayStraight s d).f x = (rayStraight s d).b := by
        unfold Straight.f; rw [hA]; ring
      have hp2 : p.2 = (rayStraight s d).b := by
        have h0 := hp; unfold onLine Straight.f at h0; rw [hA] at h0
        rw [h0]; ring
      rw [hfx, ← hp2]
    · have ha_eq : (rayStraight s d).a = d.2 / d.1 := rayStraight_a_of_ne hd
      have hx_ge : 0 ≤ sgn d.1 * (x - p.1) := by
        rw [mul_sub]
        linarith
      have hdiff : (rayStraight s d).f x - (rayStraight s d).f p.1
          = (x - p.1) * (d.2 / d.1) := by
        unfold Straight.f; rw [ha_eq]; ring
      have h5 : 0 ≤ sgn d.2 * ((rayStraight s d).f x) - sgn d.2 * ((rayStraight s d).f p.1) := by
        rw [← mul_sub, hdiff]
        exact aux_cross d.1 d.2 _ hd hx_ge
      have hp2 : p.2 = (rayStraight s d).f p.1 := hp
      rw [hp2]
      linarith
  · -- y-grid-line candidate (f1 y, y)
    right
    have hd2 : d.2 ≠ 0 := (rayStraight_a_ne_zero ha).2
    rw [hq]
    obtain ⟨⟨m, hm⟩, hge⟩ := ceil_floor_cand d.2 (p.2 + e.2) hd2
    rw [← hyc] at hm hge
    rw [mul_add] at hge
    refine ⟨⟨m, hm⟩, hge, ?_⟩
    set y : K := yCoord (p + e) (rayStraight s d) with hydef
    have ha_eq : (rayStraight s d).a = d.2 / d.1 := rayStraight_a_of_ne hd
    have hy_ge : 0 ≤ sgn d.2 * (y - p.2) := by
      rw [mul_sub]
      linarith
    have hdiff : (rayStraight s d).f1 y - p.1 = (y - p.2) * (d.1 / d.2) := by
      have hp2 : p.2 = p.1 * (rayStraight s d).a + (rayStraight s d).b := hp
      rw [ha_eq] at hp2
      have hb : (rayStraight s d).b = p.2 - p.1 * (d.2 / d.1) := by linarith
      unfold Straight.f1
      rw [ha_eq, hb]
      field_simp
      ring
    have h5 : 0 ≤ sgn d.1 * ((rayStraight s d).f1 y) - sgn d.1 * p.1 := by
      rw [← mul_sub, hdiff]
      exact aux_cross d.2 d.1 _ hd2 hy_ge
    linarith

end RayGeometry

section BoundsLemmas

variable {K : Type*} [LinearOrderedField K] [FloorRing K]

/-- The clamp `max(min(v, n - 1), 0) as usize` always lands strictly below `n`
when `n ≥ 1`. -/
lemma clampIdx_lt (v : K) {n : ℕ} (hn : 1 ≤ n) : clampIdx v n < n := by
  unfold clampIdx
  have hcast : ((n : K) - 1) = (((n : ℤ) - 1 : ℤ) : K) := by push_cast; ring
  have h1 : max (min v ((n : K) - 1)) 0 ≤ (((n : ℤ) - 1 : ℤ) : K) := by
    rw [← hcast]
    apply max_le (min_le_right _ _)
    have : (1 : K) ≤ (n : K) := by exact_mod_cast hn
    linarith
  have h2 : ⌊max (min v ((n : K) - 1)) 0⌋ ≤ (n : ℤ) - 1 := by
    have := Int.floor_le_floor h1
    rwa [Int.floor_intCast] at this
  omega

/-- The cell lookup of the `cast_ray` loop never hits the bounds assertions of
`Board::at` on a board with at least one row and one column. -/
lemma loopCell_isSome (bo : Board) (hr : 1 ≤ bo.rows) (hc : 1 ≤ bo.cols)
    (d eps p : K × K) : ∃ c, loopCell bo d eps p = some c := by
  unfold loopCell Board.at?
  rw [if_pos ⟨clampIdx_lt _ hc, clampIdx_lt _ hr⟩]
  exact ⟨_, rfl⟩

/-- The loop of `cast_ray` never panics (returns `none`) on a board with at
least one row and one column, whatever the fuel and state. -/
lemma castRayLoop_ne_none (bo : Board) (st : Straight K) (eps s d : K × K)
    (hr : 1 ≤ bo.rows) (hc : 1 ≤ bo.cols) :
    ∀ (n : ℕ) (p : K × K) (acc : List (K × K)) (dist lastDist : K),
      castRayLoop bo st eps s d n p acc dist lastDist ≠ none := by
  intro n
  induction n with
  | zero => intro p acc dist lastDist; simp [castRayLoop]
  | succ n ih =>
      intro p acc dist lastDist
      rw [castRayLoop]
      split
      · obtain ⟨c, hcell⟩ := loopCell_isSome bo hr hc d eps p
        rw [hcell]
        cases c <;> simp <;> apply ih
      · simp

/-- The unclamped ahead-cell index of `get_hitted_cells` is in bounds whenever
the hit point's coordinate is (this is the separate bounds check the function
performs before calling `board.at`). -/
lemma hitIdx_lt {n : ℕ} (dc : K) {pc : K} (h0 : 0 ≤ pc) (hn : pc < (n : K)) :
    hitIdx dc pc < n := by
  unfold hitIdx
  split
  · have h1 : (0 : ℤ) ≤ ⌊pc⌋ := Int.floor_nonneg.mpr h0
    have h2 : ⌊pc⌋ < (n : ℤ) := Int.floor_lt.mpr (by exact_mod_cast hn)
    omega
  · have h2 : ⌈pc⌉ ≤ (n : ℤ) := Int.ceil_le.mpr (le_of_lt (by exact_mod_cast hn))
    have h1 : 1 ≤ n := by
      by_contra h
      have : n = 0 := by omega
      subst this
      simp only [Nat.cast_zero] at hn
      exact absurd (h0.trans_lt hn) (lt_irrefl 0)
    omega

/-- In `get_hitted_cells`, the `board.at` call behind `resolveHitCell` always
passes its bounds assertions, so modelling it by `Board.atD` is faithful. -/
lemma resolveHitCell_at_safe (bo : Board) (d p : K × K) (h : bo.containsPoint p) :
    bo.at? (hitIdx d.1 p.1) (hitIdx d.2 p.2)
      = some (bo.atD (hitIdx d.1 p.1) (hitIdx d.2 p.2)) := by
  obtain ⟨h1, h2, h3, h4⟩ := h
  unfold Board.at? Board.atD
  rw [if_pos ⟨hitIdx_lt d.1 h1 h2, hitIdx_lt d.2 h3 h4⟩]

end BoundsLemmas

section RayLoopLemmas

variable {K : Type*} [LinearOrderedField K] [FloorRing K]

/-- One nudged step from an on-line point moves both signed coordinates weakly
forward, stays on the line, and bumps the floor of at least one signed
coordinate by one (the chosen grid-line candidate is an integer strictly
beyond the nudge). -/
lemma loop_step_floors (s d : K × K) (hd : d.1 ≠ 0) (p : K × K)
    (hp : onLine (rayStraight s d) p) :
    onLine (rayStraight s d) (next_ray_step (p + rayEps (rayStraight s d)) (rayStraight s d)) ∧
    sgn d.1 * (next_ray_step (p + rayEps (rayStraight s d)) (rayStraight s d)).1
      ≥ sgn d.1 * p.1 ∧
    sgn d.2 * (next_ray_step (p + rayEps (rayStraight s d)) (rayStraight s d)).2
      ≥ sgn d.2 * p.2 ∧
    (⌊sgn d.1 * (next_ray_step (p + rayEps (rayStraight s d)) (rayStraight s d)).1⌋
        ≥ ⌊sgn d.1 * p.1⌋ + 1
      ∨ ⌊sgn d.2 * (next_ray_step (p + rayEps (rayStraight s d)) (rayStraight s d)).2⌋
        ≥ ⌊sgn d.2 * p.2⌋ + 1) := by
  have heps1 : (rayEps (rayStraight s d)).1 = sgn d.1 * EPS := by
    simp [rayEps, rayStraight_dir]
  have heps2 : (rayEps (rayStraight s d)).2 = sgn d.2 * EPS := by
    simp [rayEps, rayStraight_dir]
  have hepos1 : sgn d.1 * (rayEps (rayStraight s d)).1 = EPS := by
    rw [heps1, ← mul_assoc, sgn_mul_sgn, one_mul]
  have hepos2 : sgn d.2 * (rayEps (rayStraight s d)).2 = EPS := by
    rw [heps2, ← mul_assoc, sgn_mul_sgn, one_mul]
  have hex : 0 ≤ sgn d.1 * (rayEps (rayStraight s d)).1 := by
    rw [hepos1]; exact EPS_pos.le
  have hey : 0 ≤ sgn d.2 * (rayEps (rayStraight s d)).2 := by
    rw [hepos2]; exact EPS_pos.le
  rcases next_step_forward s d hd p (rayEps (rayStraight s d)) hex hey hp with
    ⟨⟨k, hk⟩, hgex, hgey⟩ | ⟨⟨m, hm⟩, hgey, hgex⟩
  · rw [hepos1] at hgex
    refine ⟨onLine_next _ _, by linarith [EPS_pos (K := K)], hgey, Or.inl ?_⟩
    obtain ⟨j, hj⟩ := sgn_intCast d.1 k
    have hq1 : sgn d.1
        * (next_ray_step (p + rayEps (rayStraight s d)) (rayStraight s d)).1 = (j : K) := by
      rw [hk]; exact hj
    have hgt : sgn d.1 * p.1 < (j : K) := by
      rw [← hq1]; linarith [EPS_pos (K := K)]
    have h1 : ⌊sgn d.1 * p.1⌋ < j := Int.floor_lt.mpr hgt
    rw [hq1, Int.floor_intCast]
    omega
  · rw [hepos2] at hgey
    refine ⟨onLine_next _ _, hgex, by linarith [EPS_pos (K := K)], Or.inr ?_⟩
    obtain ⟨j, hj⟩ := sgn_intCast d.2 m
    have hq2 : sgn d.2
        * (next_ray_step (p + rayEps (rayStraight s d)) (rayStraight s d)).2 = (j : K) := by
      rw [hm]; exact hj
    have hgt : sgn d.2 * p.2 < (j : K) := by
      rw [← hq2]; linarith [EPS_pos (K := K)]
    have h1 : ⌊sgn d.2 * p.2⌋ < j := Int.floor_lt.mpr hgt
    rw [hq2, Int.floor_intCast]
    omega

lemma distSq_eq_sgn (d u v : K × K) :
    distSq u v = (sgn d.1 * u.1 - sgn d.1 * v.1) ^ 2 + (sgn d.2 * u.2 - sgn d.2 * v.2) ^ 2 := by
  unfold distSq
  rw [← mul_sub, ← mul_sub, sgn_sq_mul, sgn_sq_mul]

/-- A step whose signed coordinates move weakly forward, at least one of them
past a fresh integer, strictly increases the squared distance from the start
(all signed coordinates being on the far side of the start). -/
lemma dist_step_strict (s d p q : K × K)
    (hpx : sgn d.1 * p.1 ≥ sgn d.1 * s.1) (hpy : sgn d.2 * p.2 ≥ sgn d.2 * s.2)
    (hqx : sgn d.1 * q.1 ≥ sgn d.1 * p.1) (hqy : sgn d.2 * q.2 ≥ sgn d.2 * p.2)
    (hfl : ⌊sgn d.1 * q.1⌋ ≥ ⌊sgn d.1 * p.1⌋ + 1 ∨ ⌊sgn d.2 * q.2⌋ ≥ ⌊sgn d.2 * p.2⌋ + 1) :
    distSq p s < distSq q s := by
  have hstrict : sgn d.1 * q.1 > sgn d.1 * p.1 ∨ sgn d.2 * q.2 > sgn d.2 * p.2 := by
    rcases hfl with hfx | hfy
    · left
      have h1 : sgn d.1 * p.1 < ((⌊sgn d.1 * p.1⌋ + 1 : ℤ) : K) := by
        push_cast; exact Int.lt_floor_add_one _
      have h2 : ((⌊sgn d.1 * p.1⌋ + 1 : ℤ) : K) ≤ ((⌊sgn d.1 * q.1⌋ : ℤ) : K) :=
        Int.cast_le.mpr hfx
      have h3 : ((⌊sgn d.1 * q.1⌋ : ℤ) : K) ≤ sgn d.1 * q.1 := Int.floor_le _
      linarith
    · right
      have h1 : sgn d.2 * p.2 < ((⌊sgn d.2 * p.2⌋ + 1 : ℤ) : K) := by
        push_cast; exact Int.lt_floor_add_one _
      have h2 : ((⌊sgn d.2 * p.2⌋ + 1 : ℤ) : K) ≤ ((⌊sgn d.2 * q.2⌋ : ℤ) : K) :=
        Int.cast_le.mpr hfy
      have h3 : ((⌊sgn d.2 * q.2⌋ : ℤ) : K) ≤ sgn d.2 * q.2 := Int.floor_le _
      linarith
  rw [distSq_eq_sgn d p s, distSq_eq_sgn d q s]
  rcases hstrict with hx | hy
  · have h1 : (sgn d.1 * p.1 - sgn d.1 * s.1) ^ 2 < (sgn d.1 * q.1 - sgn d.1 * s.1) ^ 2 := by
      apply pow_lt_pow_left (by linarith) (by linarith) (by norm_num)
    have h2 : (sgn d.2 * p.2 - sgn d.2 * s.2) ^ 2 ≤ (sgn d.2 * q.2 - sgn d.2 * s.2) ^ 2 :=
      pow_le_pow_left (by linarith) (by linarith) 2
    linarith
  · have h1 : (sgn d.2 * p.2 - sgn d.2 * s.2) ^ 2 < (sgn d.2 * q.2 - sgn d.2 * s.2) ^ 2 := by
      apply pow_lt_pow_left (by linarith) (by linarith) (by norm_num)
    have h2 : (sgn d.1 * p.1 - sgn d.1 * s.1) ^ 2 ≤ (sgn d.1 * q.1 - sgn d.1 * s.1) ^ 2 :=
      pow_le_pow_left (by linarith) (by linarith) 2
    linarith

/-- The termination measure of the `cast_ray` loop: how many integers remain
between each signed coordinate and the far-clip bound `start + 10 (+1 slack)`.
Each loop iteration strictly decreases it (`rayMu_decrease`) while the
far-clip condition holds. -/
def rayMu (s d p : K × K) : ℕ :=
  (⌊sgn d.1 * s.1⌋ + 11 - ⌊sgn d.1 * p.1⌋).toNat + (⌊sgn d.2 * s.2⌋ + 11 - ⌊sgn d.2 * p.2⌋).toNat

/-- Within the far clip plane, each signed coordinate's floor is at most 10
above the start's. -/
lemma dist_far_floor (s d p : K × K) (h : distSq p s < 100) :
    ⌊sgn d.1 * p.1⌋ ≤ ⌊sgn d.1 * s.1⌋ + 10 ∧ ⌊sgn d.2 * p.2⌋ ≤ ⌊sgn d.2 * s.2⌋ + 10 := by
  have hx2 : (p.1 - s.1) ^ 2 < 100 := by
    unfold distSq at h; nlinarith [sq_nonneg (p.2 - s.2)]
  have hy2 : (p.2 - s.2) ^ 2 < 100 := by
    unfold distSq at h; nlinarith [sq_nonneg (p.1 - s.1)]
  constructor
  · have hs : (sgn d.1 * p.1 - sgn d.1 * s.1) ^ 2 < 100 := by
      rw [← mul_sub, sgn_sq_mul]; exact hx2
    have hlt : sgn d.1 * p.1 ≤ sgn d.1 * s.1 + 10 := by
      nlinarith [sq_nonneg (sgn d.1 * p.1 - sgn d.1 * s.1 - 10)]
    have h10 : sgn d.1 * s.1 + 10 = sgn d.1 * s.1 + ((10 : ℤ) : K) := by norm_num
    have hf := Int.floor_le_floor (α := K) hlt
    rwa [h10, Int.floor_add_int] at hf
  · have hs : (sgn d.2 * p.2 - sgn d.2 * s.2) ^ 2 < 100 := by
      rw [← mul_sub, sgn_sq_mul]; exact hy2
    have hlt : sgn d.2 * p.2 ≤ sgn d.2 * s.2 + 10 := by
      nlinarith [sq_nonneg (sgn d.2 * p.2 - sgn d.2 * s.2 - 10)]
    have h10 : sgn d.2 * s.2 + 10 = sgn d.2 * s.2 + ((10 : ℤ) : K) := by norm_num
    have hf := Int.floor_le_floor (α := K) hlt
    rwa [h10, Int.floor_add_int] at hf

lemma rayMu_decrease (s d : K × K) (hd : d.1 ≠ 0) (p : K × K)
    (hp : onLine (rayStraight s d) p) (hdist : distSq p s < 100) :
    rayMu s d (next_ray_step (p + rayEps (rayStraight s d)) (rayStraight s d)) < rayMu s d p := by
  obtain ⟨_, hqx, hqy, hfl⟩ := loop_step_floors s d hd p hp
  obtain ⟨hbx, hby⟩ := dist_far_floor s d p hdist
  have hqxf := Int.floor_le_floor (α := K) hqx
  have hqyf := Int.floor_le_floor (α := K) hqy
  unfold rayMu
  rcases hfl with h | h <;> omega

lemma first_step_ge (s d : K × K) (hd : d.1 ≠ 0) :
    sgn d.1 * (next_ray_step s (rayStraight s d)).1 ≥ sgn d.1 * s.1 ∧
    sgn d.2 * (next_ray_step s (rayStraight s d)).2 ≥ sgn d.2 * s.2 := by
  have h := next_step_forward s d hd s 0 (by simp) (by simp) (onLine_start s d)
  rw [add_zero] at h
  simp only [Prod.fst_zero, Prod.snd_zero, mul_zero, add_zero] at h
  rcases h with ⟨_, hx, hy⟩ | ⟨_, hy, hx⟩ <;> exact ⟨hx, hy⟩

/-- The very first step never passes more than the `11 + 11` integer budget. -/
lemma rayMu_first (s d : K × K) (hd : d.1 ≠ 0) :
    rayMu s d (next_ray_step s (rayStraight s d)) ≤ 22 := by
  obtain ⟨hx, hy⟩ := first_step_ge s d hd
  have h1 := Int.floor_le_floor (α := K) hx
  have h2 := Int.floor_le_floor (α := K) hy
  unfold rayMu
  omega

/-- Fuel-indexed termination of the loop in the non-degenerate case: once the
measure fits under the fuel, the loop exits by its own condition or by the
opaque break. -/
lemma castRayLoop_term (bo : Board) (hr : 1 ≤ bo.rows) (hc : 1 ≤ bo.cols)
    (s d : K × K) (hd : d.1 ≠ 0) :
    ∀ (n : ℕ) (p : K × K) (acc : List (K × K)) (dist lastDist : K),
      onLine (rayStraight s d) p → dist = distSq p s → rayMu s d p < n →
      ∃ pts, castRayLoop bo (rayStraight s d) (rayEps (rayStraight s d)) s d
        n p acc dist lastDist = some (pts, true) := by
  intro n
  induction n with
  | zero => intro p acc dist lastDist _ _ hmu; exact absurd hmu (Nat.not_lt_zero _)
  | succ n ih =>
      intro p acc dist lastDist honl hdist hmu
      rw [castRayLoop]
      by_cases hcond : dist < FAR_CLIPING_PLANE * FAR_CLIPING_PLANE ∧ dist ≠ lastDist
      · rw [if_pos hcond]
        obtain ⟨c, hcell⟩ := loopCell_isSome bo hr hc d (rayEps (rayStraight s d)) p
        rw [hcell]
        have hdist100 : distSq p s < 100 := by
          have h1 := hcond.1
          rw [hdist, far_sq] at h1
          exact h1
        have hmu2 := rayMu_decrease s d hd p honl hdist100
        cases c with
        | EMPTY =>
            exact ih _ acc _ dist (loop_step_floors s d hd p honl).1 rfl (by omega)
        | TranslucentTexture t =>
            exact ih _ (acc ++ [p]) _ dist (loop_step_floors s d hd p honl).1 rfl (by omega)
        | COLOR c => exact ⟨acc ++ [p], rfl⟩
        | TEXTURE t => exact ⟨acc ++ [p], rfl⟩
      · rw [if_neg hcond]
        exact ⟨acc, rfl⟩

lemma rayStraight_a_zero (s d : K × K) (hd : d.1 = 0) : (rayStraight s d).a = 0 := by
  rw [rayStraight_a, if_neg]
  simp [hd]

lemma rayStraight_b_zero (s d : K × K) (hd : d.1 = 0) : (rayStraight s d).b = s.2 := by
  rw [rayStraight_b, rayStraight_a_zero s d hd]
  ring

/-- Degenerate direction (`dir.x = 0`, slope treated as `0`): the first step
lands on `(floor(start.x), start.y)`. -/
lemma dx_zero_first (s d : K × K) (hd : d.1 = 0) :
    next_ray_step s (rayStraight s d) = (((⌊s.1⌋ : ℤ) : K), s.2) := by
  have ha := rayStraight_a_zero s d hd
  have hb := rayStraight_b_zero s d hd
  rw [next_ray_step_eq, if_neg (by simp [ha])]
  have hx : xCoord s (rayStraight s d) = ((⌊s.1⌋ : ℤ) : K) := by
    unfold xCoord
    rw [rayStraight_dir, hd, if_neg (lt_irrefl (0 : K))]
  rw [hx]
  unfold Straight.f
  rw [ha, hb]
  norm_num

lemma floor_EPS : ⌊(EPS : K)⌋ = 0 := by
  rw [Int.floor_eq_zero_iff]
  constructor
  · norm_num [EPS]
  · norm_num [EPS]

/-- Degenerate direction: the nudged step does not move (the loop stalls and
exits by the `dist == last_dist` check on the next iteration). -/
lemma dx_zero_stall (s d : K × K) (hd : d.1 = 0) :
    next_ray_step ((((⌊s.1⌋ : ℤ) : K), s.2) + rayEps (rayStraight s d)) (rayStraight s d)
      = (((⌊s.1⌋ : ℤ) : K), s.2) := by
  have ha := rayStraight_a_zero s d hd
  have hb := rayStraight_b_zero s d hd
  rw [next_ray_step_eq, if_neg (by simp [ha])]
  have heps : (rayEps (rayStraight s d)).1 = EPS := by
    have h1 : (rayEps (rayStraight s d)).1 = sgn d.1 * EPS := by
      simp [rayEps, rayStraight_dir]
    rw [h1, hd]
    unfold sgn
    rw [if_neg (lt_irrefl (0 : K))]
    ring
  have hx : xCoord ((((⌊s.1⌋ : ℤ) : K), s.2) + rayEps (rayStraight s d)) (rayStraight s d)
      = ((⌊s.1⌋ : ℤ) : K) := by
    unfold xCoord
    rw [rayStraight_dir, hd, if_neg (lt_irrefl (0 : K))]
    have hsum : ((((⌊s.1⌋ : ℤ) : K), s.2) + rayEps (rayStraight s d)).1
        = EPS + ((⌊s.1⌋ : ℤ) : K) := by
      rw [Prod.fst_add, heps]
      ring
    rw [hsum, Int.floor_add_int, floor_EPS, zero_add]
  rw [hx]
  unfold Straight.f
  rw [ha, hb]
  norm_num

/-- With `dist == last_dist`, the loop exits immediately with `true` (given at
least one unit of fuel). -/
lemma castRayLoop_stable_succ (bo : Board) (st : Straight K) (eps s d : K × K) (m : ℕ)
    (p : K × K) (acc : List (K × K)) (dd : K) :
    castRayLoop bo st eps s d (m + 1) p acc dd dd = some (acc, true) := by
  rw [castRayLoop, if_neg (by simp)]

lemma getD_allEmpty (l : List Cell) (h : ∀ c ∈ l, c = Cell.EMPTY) (k : ℕ) :
    l.getD k Cell.EMPTY = Cell.EMPTY := by
  induction l generalizing k with
  | nil => rfl
  | cons a t ih =>
      cases k with
      | zero => exact h a (List.mem_cons_self a t)
      | succ k =>
          rw [List.getD_cons_succ]
          exact ih (fun c hc => h c (List.mem_cons_of_mem a hc)) k

lemma at_allEmpty (bo : Board) (hemp : ∀ c ∈ bo.cells, c = Cell.EMPTY) (x y : ℕ) :
    bo.at? x y = none ∨ bo.at? x y = some Cell.EMPTY := by
  unfold Board.at?
  split
  · right; rw [getD_allEmpty bo.cells hemp]
  · left; rfl

/-- On an all-Empty board the loop never records a hit. -/
lemma castRayLoop_allEmpty (bo : Board) (hemp : ∀ c ∈ bo.cells, c = Cell.EMPTY)
    (st : Straight K) (eps s d : K × K) :
    ∀ (n : ℕ) (p : K × K) (acc : List (K × K)) (dist lastDist : K)
      (pts : List (K × K)) (fl : Bool),
      castRayLoop bo st eps s d n p acc dist lastDist = some (pts, fl) → pts = acc := by
  intro n
  induction n with
  | zero =>
      intro p acc dist lastDist pts fl h
      rw [castRayLoop] at h
      simp only [Option.some.injEq, Prod.mk.injEq] at h
      exact h.1.symm
  | succ n ih =>
      intro p acc dist lastDist pts fl h
      rw [castRayLoop] at h
      split at h
      · rcases at_allEmpty bo hemp (clampIdx (idxX d p) bo.cols)
            (clampIdx (idxY d eps p) bo.rows) with hc | hc
        · rw [show loopCell bo d eps p = bo.at? (clampIdx (idxX d p) bo.cols)
              (clampIdx (idxY d eps p) bo.rows) from rfl, hc] at h
          exact absurd h (by simp)
        · rw [show loopCell bo d eps p = bo.at? (clampIdx (idxX d p) bo.cols)
              (clampIdx (idxY d eps p) bo.rows) from rfl, hc] at h
          exact ih _ _ _ _ _ _ h
      · simp only [Option.some.injEq, Prod.mk.injEq] at h
        exact h.1.symm

end RayLoopLemmas

/-- Claim C7: for every 2D vector `v` and transform `t`, `apply_zoom(v)` equals
`apply(v) - offset` exactly, `apply(v) = v * zoom + offset`, and
`apply_zoom(v) = v * zoom` (component-wise); the same holds for the rectangle
instance on position, with width and height unaffected by the offset. -/
theorem c7_transform_apply {K : Type*} [LinearOrderedField K]
    (t : Transform2D K) (v : K × K) (r : Rect K) :
    applyZoomVec v t = applyVec v t - t.offset ∧
    applyVec v t = (v.1 * t.zoom.1 + t.offset.1, v.2 * t.zoom.2 + t.offset.2) ∧
    applyZoomVec v t = (v.1 * t.zoom.1, v.2 * t.zoom.2) ∧
    applyZoomRect r t = { applyRect r t with
      x := (applyRect r t).x - t.offset.1, y := (applyRect r t).y - t.offset.2 } := by
  refine ⟨?_, ?_, ?_, ?_⟩
  · simp only [applyVec, applyZoomVec, add_sub_cancel_right]
  · rfl
  · rfl
  · simp only [applyZoomRect, applyRect, Rect.mk.injEq, add_sub_cancel_right]

/-- Claim C8: for a fixed viewport (width and height positive), the column
height `(windowH / d) / (2 * windowH / windowW)` is strictly decreasing in the
perpendicular distance `d` and positive for every `d > 0` (exact arithmetic
has no infinities, so positivity is the finiteness content of the claim). -/
theorem c8_column_height {K : Type*} [LinearOrderedField K]
    (wh ww d1 d2 : K) (hwh : 0 < wh) (hww : 0 < ww) (hd1 : 0 < d1) (h12 : d1 < d2) :
    column_height wh ww d2 < column_height wh ww d1 ∧ 0 < column_height wh ww d1 := by
  have hd2 : 0 < d2 := hd1.trans h12
  have he : ∀ d : K, 0 < d → column_height wh ww d = ww / (2 * d) := by
    intro d hd
    unfold column_height
    field_simp
    ring
  rw [he d1 hd1, he d2 hd2]
  constructor
  · apply div_lt_div_of_pos_left hww (by linarith) (by linarith)
  · positivity

/-- Witness for C8 at `windowH = windowW = 2`, `d1 = 1`, `d2 = 2`. -/
theorem c8_column_height_witness :
    column_height (2 : ℚ) 2 2 < column_height 2 2 1 ∧ 0 < column_height (2 : ℚ) 2 1 :=
  c8_column_height 2 2 1 2 (by norm_num) (by norm_num) (by norm_num) (by norm_num)

/-- Claim C2: `Straight::new(O, O + D)` has slope `0` and intercept `O.y` when
`D.x = 0` (the vertical ray degenerates to a horizontal line), and slope
`D.y / D.x` with intercept `O.y - O.x * a` when `D.x ≠ 0`. -/
theorem c2_straight_new {K : Type*} [LinearOrderedField K] (O D : K × K) :
    (D.1 = 0 → (Straight.new O (O + D)).a = 0 ∧ (Straight.new O (O + D)).b = O.2) ∧
    (D.1 ≠ 0 → (Straight.new O (O + D)).a = D.2 / D.1 ∧
      (Straight.new O (O + D)).b = O.2 - O.1 * (D.2 / D.1)) := by
  have hdir : (O + D) - O = D := add_sub_cancel_left O D
  constructor
  · intro h
    have ha : (Straight.new O (O + D)).a = 0 := by
      simp [Straight.new, hdir, h]
    refine ⟨ha, ?_⟩
    have : (Straight.new O (O + D)).b = O.2 - O.1 * (Straight.new O (O + D)).a := by
      simp [Straight.new, hdir]
    rw [this, ha, mul_zero, sub_zero]
  · intro h
    have ha : (Straight.new O (O + D)).a = D.2 / D.1 := by
      simp [Straight.new, hdir, h]
    refine ⟨ha, ?_⟩
    have : (Straight.new O (O + D)).b = O.2 - O.1 * (Straight.new O (O + D)).a := by
      simp [Straight.new, hdir]
    rw [this, ha]

/-- Witness for C2: a vertical direction `(0, 7)` from `(2, 3)` and a generic
direction `(2, 4)` from `(2, 3)`. -/
theorem c2_straight_new_witness :
    ((Straight.new ((2 : ℚ), 3) (((2 : ℚ), 3) + ((0 : ℚ), 7))).a = 0 ∧
      (Straight.new ((2 : ℚ), 3) (((2 : ℚ), 3) + ((0 : ℚ), 7))).b = 3) ∧
    ((Straight.new ((2 : ℚ), 3) (((2 : ℚ), 3) + ((2 : ℚ), 4))).a = 4 / 2 ∧
      (Straight.new ((2 : ℚ), 3) (((2 : ℚ), 3) + ((2 : ℚ), 4))).b = 3 - 2 * (4 / 2)) :=
  ⟨(c2_straight_new ((2 : ℚ), 3) ((0 : ℚ), 7)).1 rfl,
    (c2_straight_new ((2 : ℚ), 3) ((2 : ℚ), 4)).2 (by norm_num)⟩

lemma lengthSq_rotate2 {K : Type*} [LinearOrderedField K]
    (v : K × K) (c s : K) (h : c ^ 2 + s ^ 2 = 1) :
    lengthSq (rotate2 v c s) = lengthSq v := by
  unfold lengthSq rotate2
  have expand : (v.1 * c - v.2 * s) ^ 2 + (v.1 * s + v.2 * c) ^ 2
      = (c ^ 2 + s ^ 2) * (v.1 ^ 2 + v.2 ^ 2) := by ring
  rw [expand, h, one_mul]

lemma turn_left_lengthSq (p : Raycasting.Player ℝ) (delta : ℝ) :
    Raycasting.lengthSq (p.turn_left delta).dir = Raycasting.lengthSq p.dir :=
  lengthSq_rotate2 _ _ _ (by rw [add_comm]; exact Real.sin_sq_add_cos_sq _)

lemma turn_right_lengthSq (p : Raycasting.Player ℝ) (delta : ℝ) :
    Raycasting.lengthSq (p.turn_right delta).dir = Raycasting.lengthSq p.dir :=
  lengthSq_rotate2 _ _ _ (by rw [add_comm]; exact Real.sin_sq_add_cos_sq _)

lemma applyTurns_lengthSq (ds : List (Bool × ℝ)) (p : Raycasting.Player ℝ) :
    Raycasting.lengthSq (applyTurns p ds).dir = Raycasting.lengthSq p.dir := by
  induction ds generalizing p with
  | nil => rfl
  | cons hd tl ih =>
      simp only [applyTurns] at ih ⊢
      rw [List.foldl_cons, ih]
      by_cases hb : hd.1
      · rw [if_pos hb, turn_left_lengthSq]
      · rw [if_neg hb, turn_right_lengthSq]

/-- Claim C10: `Player::new` has the unit direction `(1, 0)`; `turn_left` and
`turn_right` preserve the squared magnitude of the direction for every delta,
hence the unit-length invariant holds across any sequence of turns. -/
theorem c10_player_dir_unit (x y : ℝ) :
    (Player.new x y).dir = (1, 0) ∧ lengthSq (Player.new x y).dir = 1 ∧
    (∀ (p : Player ℝ) (delta : ℝ),
      lengthSq (p.turn_left delta).dir = lengthSq p.dir ∧
      lengthSq (p.turn_right delta).dir = lengthSq p.dir) ∧
    ∀ ds : List (Bool × ℝ), lengthSq (applyTurns (Player.new x y) ds).dir = 1 := by
  refine ⟨rfl, by norm_num [Player.new, lengthSq], fun p delta =>
    ⟨turn_left_lengthSq p delta, turn_right_lengthSq p delta⟩, fun ds => ?_⟩
  rw [applyTurns_lengthSq]
  norm_num [Player.new, lengthSq]


/-- Claim C9: on any board with at least one row and one column, the cell
indices `cast_ray` passes to `Board::at` are always clamped into
`0 ≤ x < cols` and `0 ≤ y < rows`, so the out-of-bounds assertion in
`Board::at` is unreachable from `cast_ray` (the model's panic value `none` is
never returned). -/
theorem c9_cast_ray_bounds {K : Type*} [LinearOrderedField K] [FloorRing K]
    (bo : Board) (hr : 1 ≤ bo.rows) (hc : 1 ≤ bo.cols) :
    (∀ v : K, clampIdx v bo.cols < bo.cols ∧ clampIdx v bo.rows < bo.rows) ∧
    ∀ (fuel : ℕ) (s d : K × K), cast_ray fuel s d bo ≠ none := by
  refine ⟨fun v => ⟨clampIdx_lt v hc, clampIdx_lt v hr⟩, fun fuel s d => ?_⟩
  unfold cast_ray
  apply castRayLoop_ne_none bo _ _ _ _ hr hc

/-- Witness for C9 on a 1×1 board. -/
theorem c9_cast_ray_bounds_witness :
    (clampIdx (5 : ℚ) (Board.new 1 1).cols < (Board.new 1 1).cols ∧
      clampIdx (5 : ℚ) (Board.new 1 1).rows < (Board.new 1 1).rows) ∧
    cast_ray 32 ((1 / 2 : ℚ), 1 / 2) (1, 0) (Board.new 1 1) ≠ none :=
  ⟨(c9_cast_ray_bounds (Board.new 1 1) (by decide) (by decide)).1 5,
    (c9_cast_ray_bounds (Board.new 1 1) (by decide) (by decide)).2 32 _ _⟩

/-- The color BLUE, modelled as an opaque identifier. -/
def BLUE : ℕ := 0

/-- The C5 scenario board: 10×10, all Empty except `(3, 0) = SolidColor(BLUE)`. -/
def c5Board : Board := (Board.new 10 10).set 3 0 (Cell.COLOR BLUE)

unseal Rat.add Rat.mul Rat.inv Rat.sub in
/-- Claim C5: on the 10×10 board whose only non-Empty cell is
`(3, 0) = SolidColor(BLUE)`, `cast_ray` from `(0.5, 0.5)` with direction
`(1, 0)` returns exactly one hit point, with `|x - 3| ≤ 1e-5` (the model's
exact arithmetic gives `x = 3` exactly) and `y = 0.5`. -/
theorem c5_literal_scenario :
    ∃ p : ℚ × ℚ, castRayPoints 32 ((1 / 2 : ℚ), (1 / 2 : ℚ)) ((1 : ℚ), (0 : ℚ)) c5Board = [p] ∧
      |p.1 - 3| ≤ 1 / 100000 ∧ p.2 = 1 / 2 := by
  refine ⟨((3 : ℚ), 1 / 2), ?_, by norm_num, rfl⟩
  decide

/-- Claim C6: for every board with at least one row and one column and every
player state, `get_hitted_cells` returns exactly `NUM_OF_RAYS` columns, every
column begins with the synthetic `(Empty, zero)` sentinel entry (hence is
nonempty even when its ray produced no hits), and every entry whose hit point
falls outside board bounds carries the Empty cell. -/
theorem c6_fov_columns {K : Type*} [LinearOrderedField K] [FloorRing K]
    (fuel : ℕ) (c s : K) (g : Game K) (hr : 1 ≤ g.board.rows) (hc : 1 ≤ g.board.cols) :
    (get_hitted_cells fuel c s g).length = NUM_OF_RAYS ∧
    (∀ col ∈ get_hitted_cells fuel c s g,
      ∃ rest, col = (Cell.EMPTY, ((0 : K), (0 : K))) :: rest) ∧
    (∀ col ∈ get_hitted_cells fuel c s g, ∀ e ∈ col,
      ¬ g.board.containsPoint e.2 → e.1 = Cell.EMPTY) := by
  refine ⟨by simp [get_hitted_cells], ?_, ?_⟩
  · intro col hcol
    simp only [get_hitted_cells, List.mem_map] at hcol
    obtain ⟨i, _, hi⟩ := hcol
    exact ⟨_, hi.symm⟩
  · intro col hcol e he hout
    simp only [get_hitted_cells, List.mem_map] at hcol
    obtain ⟨i, _, hi⟩ := hcol
    rw [← hi] at he
    simp only [List.mem_cons, List.mem_map] at he
    rcases he with he | ⟨p, _, he⟩
    · rw [he]
    · rw [← he] at hout ⊢
      simp only [resolveHitCell]
      rw [if_neg hout]

/-- The concrete game for the C6 witness: 1×1 board, player at its center. -/
def c6WitnessGame : Game ℚ :=
  { board := Board.new 1 1,
    player := { pos := (1 / 2, 1 / 2), dir := (1, 0), spd := (1, 1), turn_spd := 0 } }

/-- Witness for C6 at a concrete game (length conjunct instantiated). -/
theorem c6_fov_columns_witness :
    (get_hitted_cells 32 (1 : ℚ) 0 c6WitnessGame).length = NUM_OF_RAYS :=
  (c6_fov_columns 32 1 0 c6WitnessGame (by decide) (by decide)).1

/-- Claim C1 (divergence witness): on a board with `cols = 3`, `rows = 4` the
diagonal is `5`; the value channel the code draws for a solid-color hit of
value `1` at perpendicular distance `5/2` is `1 * (1 - 5) = -4`, independent
of the distance, whereas the value the spec prescribes is
`1 * (1 - (5/2)/5) = 1/2`; the two differ.  The code passes `max_dist` to
`darken_color` where `dist / max_dist` was intended (as its own textured
branch does). -/
theorem c1_solid_color_fog_divergence :
    max_board_diagonal 3 4 = 5 ∧
    solid_color_value 1 (max_board_diagonal 3 4) (5 / 2) = -4 ∧
    spec_solid_color_value 1 (max_board_diagonal 3 4) (5 / 2) = 1 / 2 ∧
    solid_color_value 1 (max_board_diagonal 3 4) (5 / 2) ≠
      spec_solid_color_value 1 (max_board_diagonal 3 4) (5 / 2) := by
  have h5 : max_board_diagonal 3 4 = 5 := by
    unfold max_board_diagonal
    rw [show (3 : ℝ) ^ 2 + 4 ^ 2 = 5 ^ 2 by norm_num, Real.sqrt_sq (by norm_num)]
  refine ⟨h5, ?_, ?_, ?_⟩ <;>
    simp only [h5, solid_color_value, spec_solid_color_value, darken_value] <;> norm_num

section RayCastClaims

variable {K : Type*} [LinearOrderedField K] [FloorRing K]

/-- The loop records this point as a translucent hit: the clamped cell lookup
resolves to a `TranslucentTexture`. -/
def translucentAt (bo : Board) (d eps p : K × K) : Prop :=
  ∃ t, loopCell bo d eps p = some (Cell.TranslucentTexture t)

/-- The loop records this point as the terminating opaque hit: the clamped
cell lookup resolves to a non-Empty, non-translucent cell. -/
def opaqueHitAt (bo : Board) (d eps p : K × K) : Prop :=
  ∃ c, loopCell bo d eps p = some c ∧ c ≠ Cell.EMPTY ∧ ∀ t, c ≠ Cell.TranslucentTexture t

/-- Invariant-carrying induction for the loop in the non-degenerate case: the
returned list is sorted by squared distance from the start, and splits into
translucent hits followed by at most one opaque hit. -/
lemma castRayLoop_shape (bo : Board) (s d : K × K) (hd : d.1 ≠ 0) :
    ∀ (n : ℕ) (p : K × K) (acc : List (K × K)) (dist lastDist : K)
      (pts : List (K × K)) (fl : Bool),
      onLine (rayStraight s d) p →
      sgn d.1 * p.1 ≥ sgn d.1 * s.1 →
      sgn d.2 * p.2 ≥ sgn d.2 * s.2 →
      List.Pairwise (fun a b => distSq a s ≤ distSq b s) acc →
      (∀ q ∈ acc, distSq q s ≤ distSq p s) →
      (∀ q ∈ acc, translucentAt bo d (rayEps (rayStraight s d)) q) →
      castRayLoop bo (rayStraight s d) (rayEps (rayStraight s d)) s d
        n p acc dist lastDist = some (pts, fl) →
      List.Pairwise (fun a b => distSq a s ≤ distSq b s) pts ∧
      ∃ ts op, pts = ts ++ op ∧
        (∀ q ∈ ts, translucentAt bo d (rayEps (rayStraight s d)) q) ∧
        (op = [] ∨ ∃ q, op = [q] ∧ opaqueHitAt bo d (rayEps (rayStraight s d)) q) := by
  intro n
  induction n with
  | zero =>
      intro p acc dist lastDist pts fl _ _ _ hpair hle htr h
      rw [castRayLoop] at h
      simp only [Option.some.injEq, Prod.mk.injEq] at h
      rw [← h.1]
      exact ⟨hpair, acc, [], (List.append_nil acc).symm, htr, Or.inl rfl⟩
  | succ n ih =>
      intro p acc dist lastDist pts fl honl hpx hpy hpair hle htr h
      rw [castRayLoop] at h
      split at h
      · obtain ⟨honl2, hqx, hqy, hfl2⟩ := loop_step_floors s d hd p honl
        have hstrict := dist_step_strict s d p
          (next_ray_step (p + rayEps (rayStraight s d)) (rayStraight s d))
          hpx hpy hqx hqy hfl2
        have hpair2 : List.Pairwise (fun a b => distSq a s ≤ distSq b s) (acc ++ [p]) := by
          rw [List.pairwise_append]
          refine ⟨hpair, List.pairwise_singleton _ _, ?_⟩
          intro a ha b hb
          rw [List.mem_singleton] at hb
          rw [hb]
          exact hle a ha
        cases hcell : loopCell bo d (rayEps (rayStraight s d)) p with
        | none => rw [hcell] at h; exact absurd h (by simp)
        | some c =>
            rw [hcell] at h
            cases c with
            | EMPTY =>
                refine ih _ acc _ dist pts fl honl2 (le_trans hpx hqx) (le_trans hpy hqy)
                  hpair ?_ htr h
                intro q hq
                exact (hle q hq).trans hstrict.le
            | TranslucentTexture t =>
                refine ih _ (acc ++ [p]) _ dist pts fl honl2 (le_trans hpx hqx)
                  (le_trans hpy hqy) hpair2 ?_ ?_ h
                · intro q hq
                  rcases List.mem_append.mp hq with hqa | hqp
                  · exact (hle q hqa).trans hstrict.le
                  · rw [List.mem_singleton] at hqp
                    rw [hqp]
                    exact hstrict.le
                · intro q hq
                  rcases List.mem_append.mp hq with hqa | hqp
                  · exact htr q hqa
                  · rw [List.mem_singleton] at hqp
                    rw [hqp]
                    exact ⟨t, hcell⟩
            | COLOR col =>
                simp only [Option.some.injEq, Prod.mk.injEq] at h
                rw [← h.1]
                exact ⟨hpair2, acc, [p], rfl, htr,
                  Or.inr ⟨p, rfl, Cell.COLOR col, hcell, by simp, by simp⟩⟩
            | TEXTURE t =>
                simp only [Option.some.injEq, Prod.mk.injEq] at h
                rw [← h.1]
                exact ⟨hpair2, acc, [p], rfl, htr,
                  Or.inr ⟨p, rfl, Cell.TEXTURE t, hcell, by simp, by simp⟩⟩
      · simp only [Option.some.injEq, Prod.mk.injEq] at h
        rw [← h.1]
        exact ⟨hpair, acc, [], (List.append_nil acc).symm, htr, Or.inl rfl⟩

end RayCastClaims

/-- Claim C3: whenever `cast_ray` returns a hit list (any fuel, any start,
direction and board), the list is ordered nearest-to-farthest from the start
(non-decreasing squared distance, hence non-decreasing distance) and consists
of zero or more points resolving to `TranslucentTexture` cells followed by at
most one final point resolving to a non-Empty, non-translucent cell — a
translucent hit never ends the traversal and an opaque hit does. -/
theorem c3_hit_list {K : Type*} [LinearOrderedField K] [FloorRing K]
    (s d : K × K) (bo : Board) (fuel : ℕ) (pts : List (K × K)) (fl : Bool)
    (h : cast_ray fuel s d bo = some (pts, fl)) :
    List.Pairwise (fun a b => distSq a s ≤ distSq b s) pts ∧
    ∃ ts op, pts = ts ++ op ∧
      (∀ q ∈ ts, translucentAt bo d (rayEps (rayStraight s d)) q) ∧
      (op = [] ∨ ∃ q, op = [q] ∧ opaqueHitAt bo d (rayEps (rayStraight s d)) q) := by
  by_cases hd : d.1 = 0
  · -- degenerate vertical direction: the loop stalls after one point
    have hfirst := dx_zero_first s d hd
    have hstall := dx_zero_stall s d hd
    simp only [cast_ray] at h
    rw [hfirst] at h
    cases fuel with
    | zero =>
        rw [castRayLoop] at h
        simp only [Option.some.injEq, Prod.mk.injEq] at h
        rw [← h.1]
        exact ⟨List.Pairwise.nil, [], [], rfl, by simp, Or.inl rfl⟩
    | succ m =>
        rw [castRayLoop] at h
        split at h
        · cases hcell : loopCell bo d (rayEps (rayStraight s d)) (((⌊s.1⌋ : ℤ) : K), s.2) with
          | none => rw [hcell] at h; exact absurd h (by simp)
          | some c =>
              rw [hcell] at h
              cases c with
              | EMPTY =>
                  rw [hstall] at h
                  replace h : castRayLoop bo (rayStraight s d) (rayEps (rayStraight s d)) s d m
                      (((⌊s.1⌋ : ℤ) : K), s.2) [] (distSq (((⌊s.1⌋ : ℤ) : K), s.2) s)
                      (distSq (((⌊s.1⌋ : ℤ) : K), s.2) s) = some (pts, fl) := h
                  have hpts : pts = [] := by
                    cases m with
                    | zero =>
                        rw [castRayLoop] at h
                        simp only [Option.some.injEq, Prod.mk.injEq] at h
                        exact h.1.symm
                    | succ m2 =>
                        rw [castRayLoop_stable_succ] at h
                        simp only [Option.some.injEq, Prod.mk.injEq] at h
                        exact h.1.symm
                  rw [hpts]
                  exact ⟨List.Pairwise.nil, [], [], rfl, by simp, Or.inl rfl⟩
              | TranslucentTexture t =>
                  rw [hstall] at h
                  replace h : castRayLoop bo (rayStraight s d) (rayEps (rayStraight s d)) s d m
                      (((⌊s.1⌋ : ℤ) : K), s.2) ([] ++ [(((⌊s.1⌋ : ℤ) : K), s.2)])
                      (distSq (((⌊s.1⌋ : ℤ) : K), s.2) s)
                      (distSq (((⌊s.1⌋ : ℤ) : K), s.2) s) = some (pts, fl) := h
                  have hpts : pts = [] ++ [(((⌊s.1⌋ : ℤ) : K), s.2)] := by
                    cases m with
                    | zero =>
                        rw [castRayLoop] at h
                        simp only [Option.some.injEq, Prod.mk.injEq] at h
                        exact h.1.symm
                    | succ m2 =>
                        rw [castRayLoop_stable_succ] at h
                        simp only [Option.some.injEq, Prod.mk.injEq] at h
                        exact h.1.symm
                  rw [hpts]
                  simp only [List.nil_append]
                  refine ⟨List.pairwise_singleton _ _, [(((⌊s.1⌋ : ℤ) : K), s.2)], [],
                    rfl, ?_, Or.inl rfl⟩
                  intro q hq
                  rw [List.mem_singleton] at hq
                  rw [hq]
                  exact ⟨t, hcell⟩
              | COLOR col =>
                  simp only [Option.some.injEq, Prod.mk.injEq] at h
                  rw [← h.1]
                  exact ⟨List.pairwise_singleton _ _, [], [(((⌊s.1⌋ : ℤ) : K), s.2)],
                    rfl, by simp, Or.inr ⟨_, rfl, Cell.COLOR col, hcell, by simp, by simp⟩⟩
              | TEXTURE t =>
                  simp only [Option.some.injEq, Prod.mk.injEq] at h
                  rw [← h.1]
                  exact ⟨List.pairwise_singleton _ _, [], [(((⌊s.1⌋ : ℤ) : K), s.2)],
                    rfl, by simp, Or.inr ⟨_, rfl, Cell.TEXTURE t, hcell, by simp, by simp⟩⟩
        · simp only [Option.some.injEq, Prod.mk.injEq] at h
          rw [← h.1]
          exact ⟨List.Pairwise.nil, [], [], rfl, by simp, Or.inl rfl⟩
  · simp only [cast_ray] at h
    have h1 := first_step_ge s d hd
    exact castRayLoop_shape bo s d hd fuel _ [] _ _ pts fl
      (onLine_next s (rayStraight s d)) h1.1 h1.2 List.Pairwise.nil (by simp) (by simp) h

/-- The board for the C3 witness: 1×2, with an opaque color at `(1, 0)`. -/
def c3WitnessBoard : Board := (Board.new 1 2).set 1 0 (Cell.COLOR BLUE)

unseal Rat.add Rat.mul Rat.inv Rat.sub in
/-- Witness for C3: a concrete one-hit cast on a 1×2 board. -/
theorem c3_hit_list_witness :
    List.Pairwise (fun a b => distSq a ((1 / 2 : ℚ), (1 / 2 : ℚ))
        ≤ distSq b ((1 / 2 : ℚ), (1 / 2 : ℚ))) [((1 : ℚ), (1 / 2 : ℚ))] ∧
    ∃ ts op, [((1 : ℚ), (1 / 2 : ℚ))] = ts ++ op ∧
      (∀ q ∈ ts, translucentAt c3WitnessBoard ((1 : ℚ), (0 : ℚ))
        (rayEps (rayStraight ((1 / 2 : ℚ), (1 / 2 : ℚ)) ((1 : ℚ), (0 : ℚ)))) q) ∧
      (op = [] ∨ ∃ q, op = [q] ∧ opaqueHitAt c3WitnessBoard ((1 : ℚ), (0 : ℚ))
        (rayEps (rayStraight ((1 / 2 : ℚ), (1 / 2 : ℚ)) ((1 : ℚ), (0 : ℚ)))) q) :=
  c3_hit_list ((1 / 2 : ℚ), (1 / 2 : ℚ)) ((1 : ℚ), (0 : ℚ)) c3WitnessBoard 32
    [((1 : ℚ), (1 / 2 : ℚ))] true (by decide)

/-- Claim C4: `cast_ray` terminates for every start, direction (zero and
axis-aligned included) and board with at least one row and one column: with
the fuel budget `castRayFuel` (a bound proportional to the far-clip distance)
the loop always exits by its own far-clip / stall condition or by the opaque
break (flag `true`, never by running out of fuel); on an all-Empty board it
returns the empty hit list. -/
theorem c4_cast_ray_terminates {K : Type*} [LinearOrderedField K] [FloorRing K]
    (s d : K × K) (bo : Board) (hr : 1 ≤ bo.rows) (hc : 1 ≤ bo.cols) :
    (∃ pts, cast_ray castRayFuel s d bo = some (pts, true)) ∧
    ((∀ c ∈ bo.cells, c = Cell.EMPTY) → cast_ray castRayFuel s d bo = some ([], true)) := by
  have main : ∃ pts, cast_ray castRayFuel s d bo = some (pts, true) := by
    by_cases hd : d.1 = 0
    · have hfirst := dx_zero_first s d hd
      have hstall := dx_zero_stall s d hd
      simp only [cast_ray, castRayFuel]
      rw [hfirst]
      rw [show (32 : ℕ) = 31 + 1 from rfl, castRayLoop]
      by_cases hcond : distSq (((⌊s.1⌋ : ℤ) : K), s.2) s
            < FAR_CLIPING_PLANE * FAR_CLIPING_PLANE ∧
          distSq (((⌊s.1⌋ : ℤ) : K), s.2) s ≠ distSq (((⌊s.1⌋ : ℤ) : K), s.2) s - 1
      · rw [if_pos hcond]
        obtain ⟨c, hcell⟩ := loopCell_isSome bo hr hc d (rayEps (rayStraight s d))
          (((⌊s.1⌋ : ℤ) : K), s.2)
        rw [hcell]
        cases c with
        | EMPTY =>
            rw [hstall]
            exact ⟨[], castRayLoop_stable_succ bo _ _ s d 30 _ [] _⟩
        | TranslucentTexture t =>
            rw [hstall]
            exact ⟨[(((⌊s.1⌋ : ℤ) : K), s.2)],
              castRayLoop_stable_succ bo _ _ s d 30 _ _ _⟩
        | COLOR col => exact ⟨[(((⌊s.1⌋ : ℤ) : K), s.2)], rfl⟩
        | TEXTURE t => exact ⟨[(((⌊s.1⌋ : ℤ) : K), s.2)], rfl⟩
      · rw [if_neg hcond]
        exact ⟨[], rfl⟩
    · simp only [cast_ray]
      refine castRayLoop_term bo hr hc s d hd castRayFuel _ [] _ _
        (onLine_next s (rayStraight s d)) rfl ?_
      have hb := rayMu_first s d hd
      unfold castRayFuel
      omega
  refine ⟨main, fun hemp => ?_⟩
  obtain ⟨pts, hpts⟩ := main
  have h0 : pts = [] := by
    simp only [cast_ray] at hpts
    exact castRayLoop_allEmpty bo hemp _ _ s d _ _ _ _ _ _ _ hpts
  rw [h0] at hpts
  exact hpts

/-- Witness for C4 on a 1×1 all-Empty board. -/
theorem c4_cast_ray_terminates_witness :
    (∃ pts, cast_ray castRayFuel ((1 / 2 : ℚ), 1 / 2) (1, 0) (Board.new 1 1)
      = some (pts, true)) ∧
    ((∀ c ∈ (Board.new 1 1).cells, c = Cell.EMPTY) →
      cast_ray castRayFuel ((1 / 2 : ℚ), 1 / 2) (1, 0) (Board.new 1 1) = some ([], true)) :=
  c4_cast_ray_terminates ((1 / 2 : ℚ), 1 / 2) (1, 0) (Board.new 1 1)
    (by decide) (by decide)

end Raycasting
